import Mathlib

/-!
Shallow embedding of `src/practice.py` (sprite color analysis).

The program has two functions:

* `analyze_image_grouped_colors` (lines 7-57): decodes an image, extracts the
  colors of the pixels whose alpha channel is positive (or all pixels when
  there is no alpha channel), clusters them with K-Means, and returns a Python
  dict mapping each cluster's representative color (the centroid, truncated to
  integers) to the percentage of included pixels in that cluster.  Decode
  failures and exceptions are caught and surface as `None`.

* `analyze_folder_grouped_colors` (lines 59-106): iterates the files of a
  folder whose lowercased name ends with ".png", analyzes each, re-decodes the
  file to recompute its included-pixel count, converts each percentage back to
  an absolute count, and accumulates counts per color and a grand pixel total;
  finally it renormalizes the accumulated counts into percentages.

External collaborators are modelled as data:

* the image codec (`cv2.imread`) becomes an `Option Image` decode result; the
  aggregator decodes each file twice (line 23 and line 85), so a file carries
  two decode results, one per call site (for an unchanged file they coincide);
* the clusterer (`sklearn.cluster.KMeans`) becomes an `Option (Clustering k)`:
  a per-sample label list together with the integer-truncated centroid of each
  of the `k` clusters, or `none` when `fit` raises (the exception is caught by
  the `except` block of line 55);
* Python `dict` / `Counter` become association lists with the corresponding
  update-in-place / add-or-append operations;
* Python float arithmetic on percentages is carried out exactly in `ℚ`.
-/

namespace Sprites

/-- A 3-component color value (BGR channel order as read by the codec).
Pixel channels are 8-bit values and truncated centroids are machine integers;
both are embedded in `ℤ`. -/
abbrev Color := ℤ × ℤ × ℤ

/-- One pixel's color sample, the alpha channel excluded. -/
abbrev Pixel := ℤ × ℤ × ℤ

/-- A decoded image: either 3 channels (`img.shape[2] == 3`, no transparency)
or 4 channels (`img.shape[2] == 4`, each pixel carries an alpha value).
The 2-D pixel grid is kept in the flattened row-major order in which
`reshape((-1, 3))` / the mask extraction of lines 29-31 traverse it. -/
inductive Image where
  | rgb  (pixels : List Pixel)
  | rgba (pixels : List (Pixel × ℤ))

/-- Lines 28-33: the included pixel samples.  With 4 channels, a pixel is kept
iff its alpha value is strictly positive (`mask = img[:, :, 3] > 0`); with 3
channels every pixel is kept. -/
def includedPixels : Image → List Pixel
  | .rgb ps => ps
  | .rgba ps => (ps.filter fun p => 0 < p.2).map Prod.fst

/-- Lines 87-91: the included-pixel count as the folder aggregator recomputes
it (`np.sum(mask)` for 4 channels, `shape[0] * shape[1]` otherwise). -/
def includedCount : Image → ℕ
  | .rgb ps => ps.length
  | .rgba ps => (ps.filter fun p => 0 < p.2).length

/-- The outcome of a successful `KMeans(n_clusters=k).fit`: a cluster label
for each sample (in sample order, `kmeans.labels_`) and, for each cluster, its
centroid truncated to integers (`kmeans.cluster_centers_.astype(int)`,
line 43). -/
structure Clustering (k : ℕ) where
  labels : List (Fin k)
  centers : Fin k → Color

/-- Python dict assignment `d[key] = v`: update the entry in place when the
key is present, append it otherwise. -/
def dictSet : List (Color × ℚ) → Color → ℚ → List (Color × ℚ)
  | [], key, v => [(key, v)]
  | e :: rest, key, v =>
      if e.1 = key then (key, v) :: rest else e :: dictSet rest key v

/-- Python dict lookup `d[key]` (as an `Option`): the value of the first
entry carrying the key. -/
def dictGet? : List (Color × ℚ) → Color → Option ℚ
  | [], _ => none
  | e :: rest, key => if e.1 = key then some e.2 else dictGet? rest key

/-- Number of entries of the association list carrying a given key. -/
def keyCount : List (Color × ℚ) → Color → ℕ
  | [], _ => 0
  | e :: rest, key => (if e.1 = key then 1 else 0) + keyCount rest key

/-- The sum of the values (percentages or counts) of an association list. -/
def valuesSum (d : List (Color × ℚ)) : ℚ :=
  (d.map Prod.snd).sum

/-- Lines 45-51: the loop building `color_percentages`.  For each cluster
index `i` in `range(n_clusters)`: `count = Counter(labels)[i]`,
`percentage = (count / total_pixels) * 100`, and the dict assignment
`color_percentages[color] = percentage` keyed by the truncated centroid. -/
def colorPercentages (k : ℕ) (cl : Clustering k) (totalPixels : ℕ) :
    List (Color × ℚ) :=
  (List.finRange k).foldl
    (fun d i =>
      dictSet d (cl.centers i)
        ((cl.labels.count i : ℚ) / (totalPixels : ℚ) * 100))
    []

/-- Lines 22-57, `analyze_image_grouped_colors`.  `decoded` is the result of
`cv2.imread` (line 23, `none` when the codec returns `None`); `cl` is the
outcome of the K-Means run (`none` when `fit` raises and control reaches the
`except` block).  Returns `none` on the error paths, `some {}` when no pixel
is included (line 36-37), and the percentage dict otherwise. -/
def analyze_image_grouped_colors (k : ℕ) (decoded : Option Image)
    (cl : Option (Clustering k)) : Option (List (Color × ℚ)) :=
  match decoded with
  | none => none
  | some img =>
      let pixels := includedPixels img
      if pixels.length = 0 then some []
      else
        match cl with
        | none => none
        | some c => some (colorPercentages k c pixels.length)

/-- One directory entry as the folder aggregator sees it: its filename, the
decode result of the `cv2.imread` call inside `analyze_image_grouped_colors`
(line 23), the decode result of the aggregator's own `cv2.imread` call
(line 85), and the K-Means outcome for the file's included pixels.  For an
unchanged readable file the two decode results are equal.  A Python string
(the filename) is embedded as its list of characters. -/
structure SpriteFile (k : ℕ) where
  name : List Char
  decode1 : Option Image
  decode2 : Option Image
  cluster : Option (Clustering k)

/-- The characters of the literal ".png" of line 80. -/
def pngSuffix : List Char := ['.', 'p', 'n', 'g']

/-- Line 80: `filename.lower().endswith(".png")` — lowercase the name, then
test the ".png" suffix. -/
def pngSelected (name : List Char) : Bool :=
  List.isSuffixOf pngSuffix (name.map Char.toLower)

/-- Python `Counter` update `c[key] += v`: add to the entry in place when the
key is present, append `(key, v)` otherwise (a missing key counts as 0). -/
def counterAdd : List (Color × ℚ) → Color → ℚ → List (Color × ℚ)
  | [], key, v => [(key, v)]
  | e :: rest, key, v =>
      if e.1 = key then (e.1, e.2 + v) :: rest else e :: counterAdd rest key v

/-- Lines 80-97: the body of the folder loop for one directory entry, acting
on the accumulator state (`all_cluster_counts`, `total_pixels_across_images`).
A file is skipped (state unchanged) when its name is not selected, when
`analyze_image_grouped_colors` returns `None` or an empty dict (both falsy at
line 84), or when the second decode returns `None` (line 86); otherwise the
grand total grows by the recomputed included-pixel count `N` and, for every
`(color, percentage)` item of the dict, `(percentage / 100) * N` is added to
the color's accumulated count. -/
def processFile (k : ℕ) (st : List (Color × ℚ) × ℕ) (f : SpriteFile k) :
    List (Color × ℚ) × ℕ :=
  if pngSelected f.name then
    match analyze_image_grouped_colors k f.decode1 f.cluster with
    | none => st
    | some d =>
        if d.isEmpty then st
        else
          match f.decode2 with
          | none => st
          | some img =>
              let N := includedCount img
              (d.foldl (fun acc e => counterAdd acc e.1 (e.2 / 100 * (N : ℚ)))
                 st.1,
               st.2 + N)
  else st

/-- Lines 75-97: the accumulator pair after the whole folder loop, starting
from `Counter()` and `0`.  `files` lists the directory entries in the order
`os.listdir` returns them. -/
def aggState (k : ℕ) (files : List (SpriteFile k)) : List (Color × ℚ) × ℕ :=
  files.foldl (processFile k) ([], 0)

/-- Lines 99-106, the tail of `analyze_folder_grouped_colors`: an empty dict
when the grand total is zero, otherwise each accumulated count renormalized
to `(total_count / total_pixels_across_images) * 100`. -/
def analyze_folder_grouped_colors (k : ℕ) (files : List (SpriteFile k)) :
    List (Color × ℚ) :=
  let st := aggState k files
  if st.2 = 0 then []
  else st.1.map fun e => (e.1, e.2 / (st.2 : ℚ) * 100)

/-- The spec's notion of case-insensitive suffix matching, written from the
spec's words: the name and the suffix are compared after lowercasing both. -/
def caseInsensitiveEndsWith (name suffix : List Char) : Bool :=
  List.isSuffixOf (suffix.map Char.toLower) (name.map Char.toLower)

/-! ### Concrete instances used as test data

The clustering outcomes below are consistent with the collaborator contract:
every label indexes a cluster, there is one label per sample, and each
truncated centroid is one the K-Means run can produce on the listed pixels. -/

/-- A 2-pixel opaque image with two distinct colors. -/
def imgAB : Image := .rgb [(0, 0, 0), (9, 9, 9)]

/-- Two clusters with distinct truncated centroids, one pixel each. -/
def clAB : Clustering 2 := ⟨[0, 1], fun i => if i = 0 then (0, 0, 0) else (9, 9, 9)⟩

/-- A readable well-behaved ".png" directory entry. -/
def fileAB : SpriteFile 2 :=
  ⟨['a', '.', 'p', 'n', 'g'], some imgAB, some imgAB, some clAB⟩

/-- Two clusters whose distinct centroids truncate to the same color:
`astype(int)` maps both 0.4 and 0.6 to 0. -/
def clCollide : Clustering 2 := ⟨[0, 1], fun _ => (0, 0, 0)⟩

/-- A 1-pixel and a 2-pixel monochrome image of the color (5, 5, 5). -/
def imgMono1 : Image := .rgb [(5, 5, 5)]

/-- See `imgMono1`. -/
def imgMono2 : Image := .rgb [(5, 5, 5), (5, 5, 5)]

/-- K-Means with K = 2 on a monochrome image: both centroids sit at the
single color and every sample joins cluster 0 (ties pick the first center).
-/
def clMono1 : Clustering 2 := ⟨[0], fun _ => (5, 5, 5)⟩

/-- See `clMono1`. -/
def clMono2 : Clustering 2 := ⟨[0, 0], fun _ => (5, 5, 5)⟩

/-- The two monochrome files analyzed with K = 2. -/
def fileMono1 : SpriteFile 2 :=
  ⟨['a', '.', 'p', 'n', 'g'], some imgMono1, some imgMono1, some clMono1⟩

/-- See `fileMono1`. -/
def fileMono2 : SpriteFile 2 :=
  ⟨['b', '.', 'p', 'n', 'g'], some imgMono2, some imgMono2, some clMono2⟩

/-- K-Means with K = 1 on the monochrome images: the sole centroid is the
mean of identical samples, i.e. the color itself. -/
def clOne1 : Clustering 1 := ⟨[0], fun _ => (5, 5, 5)⟩

/-- See `clOne1`. -/
def clOne2 : Clustering 1 := ⟨[0, 0], fun _ => (5, 5, 5)⟩

/-- The two monochrome files analyzed with K = 1. -/
def fileOne1 : SpriteFile 1 :=
  ⟨['a', '.', 'p', 'n', 'g'], some imgMono1, some imgMono1, some clOne1⟩

/-- See `fileOne1`. -/
def fileOne2 : SpriteFile 1 :=
  ⟨['b', '.', 'p', 'n', 'g'], some imgMono2, some imgMono2, some clOne2⟩

/-- A corrupt ".png" entry: both decode attempts return `None`. -/
def fileBad : SpriteFile 2 := ⟨['c', '.', 'p', 'n', 'g'], none, none, none⟩

/-- A non-".png" directory entry. -/
def fileJpg2 : SpriteFile 2 :=
  ⟨['i', 'm', 'g', '.', 'j', 'p', 'g'], some imgAB, some imgAB, some clAB⟩

/-- A fully transparent image: every alpha value is zero. -/
def imgTransparent : Image := .rgba [((1, 2, 3), 0), ((4, 5, 6), 0)]

/-- An entry whose first decode succeeds but whose second decode fails. -/
def fileNoDecode2 : SpriteFile 2 :=
  ⟨['d', '.', 'p', 'n', 'g'], some imgAB, none, some clAB⟩

/-- An entry holding the fully transparent image (analysis returns `{}`). -/
def fileTransparent : SpriteFile 2 :=
  ⟨['t', '.', 'p', 'n', 'g'], some imgTransparent, some imgTransparent, none⟩

/-! ### Lemmas about the Python dict operation `dictSet` -/

theorem mem_dictSet {d : List (Color × ℚ)} {key : Color} {v : ℚ}
    {e : Color × ℚ} (he : e ∈ dictSet d key v) : e = (key, v) ∨ e ∈ d := by
  induction d with
  | nil => simpa [dictSet] using he
  | cons a rest ih =>
      by_cases hk : a.1 = key
      · simp only [dictSet, if_pos hk] at he
        rcases List.mem_cons.mp he with h | h
        · exact Or.inl h
        · exact Or.inr (List.mem_cons_of_mem _ h)
      · simp only [dictSet, if_neg hk] at he
        rcases List.mem_cons.mp he with h | h
        · exact Or.inr (h ▸ List.mem_cons_self _ _)
        · rcases ih h with h1 | h1
          · exact Or.inl h1
          · exact Or.inr (List.mem_cons_of_mem _ h1)

theorem dictSet_of_fresh {d : List (Color × ℚ)} {key : Color} (v : ℚ)
    (h : ∀ e ∈ d, e.1 ≠ key) : dictSet d key v = d ++ [(key, v)] := by
  induction d with
  | nil => rfl
  | cons a rest ih =>
      have ha : a.1 ≠ key := h a (List.mem_cons_self _ _)
      simp only [dictSet, if_neg ha, List.cons_append, List.cons.injEq, true_and]
      exact ih fun e he => h e (List.mem_cons_of_mem _ he)

theorem dictGet?_dictSet_self (d : List (Color × ℚ)) (key : Color) (v : ℚ) :
    dictGet? (dictSet d key v) key = some v := by
  induction d with
  | nil => simp [dictSet, dictGet?]
  | cons a rest ih =>
      by_cases hk : a.1 = key
      · simp [dictSet, if_pos hk, dictGet?]
      · simpa [dictSet, if_neg hk, dictGet?, hk] using ih

theorem dictSet_cons_pos {a : Color × ℚ} {key : Color}
    (rest : List (Color × ℚ)) (v : ℚ) (hk : a.1 = key) :
    dictSet (a :: rest) key v = (key, v) :: rest := by
  simp [dictSet, hk]

theorem dictSet_cons_neg {a : Color × ℚ} {key : Color}
    (rest : List (Color × ℚ)) (v : ℚ) (hk : ¬a.1 = key) :
    dictSet (a :: rest) key v = a :: dictSet rest key v := by
  simp [dictSet, hk]

theorem dictGet?_dictSet_ne {key col : Color} (d : List (Color × ℚ)) (v : ℚ)
    (hne : key ≠ col) : dictGet? (dictSet d key v) col = dictGet? d col := by
  induction d with
  | nil => simp [dictSet, dictGet?, hne]
  | cons a rest ih =>
      by_cases hk : a.1 = key
      · rw [dictSet_cons_pos rest v hk]
        simp [dictGet?, hne, hk]
      · rw [dictSet_cons_neg rest v hk]
        by_cases hc : a.1 = col
        · simp [dictGet?, hc]
        · simp [dictGet?, hc, ih]

theorem keyCount_dictSet_self (d : List (Color × ℚ)) (key : Color) (v : ℚ) :
    keyCount (dictSet d key v) key = max (keyCount d key) 1 := by
  induction d with
  | nil => simp [dictSet, keyCount]
  | cons a rest ih =>
      by_cases hk : a.1 = key
      · rw [dictSet_cons_pos rest v hk]
        simp [keyCount, hk]
      · rw [dictSet_cons_neg rest v hk]
        simp [keyCount, hk, ih]

theorem keyCount_dictSet_ne {key col : Color} (d : List (Color × ℚ)) (v : ℚ)
    (hne : key ≠ col) : keyCount (dictSet d key v) col = keyCount d col := by
  induction d with
  | nil => simp [dictSet, keyCount, hne]
  | cons a rest ih =>
      by_cases hk : a.1 = key
      · rw [dictSet_cons_pos rest v hk]
        simp [keyCount, hne, hk]
      · rw [dictSet_cons_neg rest v hk]
        simp [keyCount, ih]

/-! ### Lemmas about the Python Counter operation `counterAdd` -/

theorem valuesSum_counterAdd (d : List (Color × ℚ)) (key : Color) (v : ℚ) :
    valuesSum (counterAdd d key v) = valuesSum d + v := by
  induction d with
  | nil => simp [counterAdd, valuesSum]
  | cons a rest ih =>
      by_cases hk : a.1 = key
      · simp [counterAdd, if_pos hk, valuesSum]
        ring
      · simp only [counterAdd, if_neg hk]
        simp only [valuesSum, List.map_cons, List.sum_cons] at ih ⊢
        rw [ih]
        ring

theorem mem_counterAdd {d : List (Color × ℚ)} {key : Color} {v : ℚ}
    {e : Color × ℚ} (he : e ∈ counterAdd d key v) :
    e ∈ d ∨ e = (key, v) ∨ ∃ a ∈ d, e = (a.1, a.2 + v) := by
  induction d with
  | nil => exact Or.inr (Or.inl (by simpa [counterAdd] using he))
  | cons a rest ih =>
      by_cases hk : a.1 = key
      · simp only [counterAdd, if_pos hk] at he
        rcases List.mem_cons.mp he with h | h
        · exact Or.inr (Or.inr ⟨a, List.mem_cons_self _ _, h⟩)
        · exact Or.inl (List.mem_cons_of_mem _ h)
      · simp only [counterAdd, if_neg hk] at he
        rcases List.mem_cons.mp he with h | h
        · exact Or.inl (h ▸ List.mem_cons_self _ _)
        · rcases ih h with h1 | h1 | ⟨b, hb, hbe⟩
          · exact Or.inl (List.mem_cons_of_mem _ h1)
          · exact Or.inr (Or.inl h1)
          · exact Or.inr (Or.inr ⟨b, List.mem_cons_of_mem _ hb, hbe⟩)

theorem counterAdd_nonneg {d : List (Color × ℚ)} {key : Color} {v : ℚ}
    (hd : ∀ e ∈ d, 0 ≤ e.2) (hv : 0 ≤ v) :
    ∀ e ∈ counterAdd d key v, 0 ≤ e.2 := by
  intro e he
  rcases mem_counterAdd he with h | h | ⟨a, ha, hae⟩
  · exact hd e h
  · simpa [h] using hv
  · have := hd a ha
    simp only [hae]
    exact add_nonneg this hv

/-! ### Lemmas about folds of `dictSet` (the `color_percentages` loop) -/

theorem valuesSum_foldl_dictSet {ι : Type} (κ : ι → Color) (w : ι → ℚ) :
    ∀ (l : List ι) (d : List (Color × ℚ)),
      (l.map κ).Nodup → (∀ i ∈ l, ∀ e ∈ d, e.1 ≠ κ i) →
      valuesSum (l.foldl (fun acc i => dictSet acc (κ i) (w i)) d)
        = valuesSum d + (l.map w).sum := by
  intro l
  induction l with
  | nil => intro d _ _; simp
  | cons a t ih =>
      intro d hnd hfresh
      obtain ⟨hna, hnt⟩ :
          (∀ x ∈ t, ¬κ x = κ a) ∧ (t.map κ).Nodup := by simpa using hnd
      have hfa : ∀ e ∈ d, e.1 ≠ κ a :=
        fun e he => hfresh a (List.mem_cons_self _ _) e he
      have hfresh2 : ∀ i ∈ t, ∀ e ∈ d ++ [(κ a, w a)], e.1 ≠ κ i := by
        intro i hi e he
        rcases List.mem_append.mp he with h | h
        · exact hfresh i (List.mem_cons_of_mem _ hi) e h
        · have he2 : e = (κ a, w a) := by simpa using h
          rw [he2]
          intro hcontra
          exact hna i hi hcontra.symm
      simp only [List.foldl_cons]
      rw [dictSet_of_fresh (w a) hfa, ih (d ++ [(κ a, w a)]) hnt hfresh2]
      simp [valuesSum]
      ring

theorem foldl_dictSet_nonneg {ι : Type} (κ : ι → Color) (w : ι → ℚ)
    (hw : ∀ i, 0 ≤ w i) :
    ∀ (l : List ι) (d : List (Color × ℚ)), (∀ e ∈ d, 0 ≤ e.2) →
      ∀ e ∈ l.foldl (fun acc i => dictSet acc (κ i) (w i)) d, 0 ≤ e.2 := by
  intro l
  induction l with
  | nil => intro d hd; simpa using hd
  | cons a t ih =>
      intro d hd
      simp only [List.foldl_cons]
      refine ih (dictSet d (κ a) (w a)) ?_
      intro e he
      rcases mem_dictSet he with h | h
      · simpa [h] using hw a
      · exact hd e h

theorem dictGet?_foldl_dictSet {ι : Type} (κ : ι → Color) (w : ι → ℚ)
    (col : Color) [DecidablePred fun i : ι => κ i = col] :
    ∀ (l : List ι) (d : List (Color × ℚ)),
      dictGet? (l.foldl (fun acc i => dictSet acc (κ i) (w i)) d) col
        = ((l.filter fun i => κ i = col).getLast?).elim (dictGet? d col)
            (fun m => some (w m)) := by
  intro l
  induction l with
  | nil => intro d; simp
  | cons a t ih =>
      intro d
      simp only [List.foldl_cons]
      rw [ih (dictSet d (κ a) (w a))]
      by_cases hpa : κ a = col
      · have hfilter : (a :: t).filter (fun i => decide (κ i = col))
            = a :: t.filter (fun i => decide (κ i = col)) := by
          simp [List.filter, hpa]
        rw [hfilter]
        rcases hfp : t.filter (fun i => decide (κ i = col)) with _ | ⟨b, bs⟩
        · subst hpa
          simp [dictGet?_dictSet_self]
        · rw [List.getLast?_cons_cons]
          rcases hbl : (b :: bs).getLast? with _ | m
          · exact absurd hbl (by simp)
          · simp
      · have hfilter : (a :: t).filter (fun i => decide (κ i = col))
            = t.filter (fun i => decide (κ i = col)) := by
          simp [List.filter, hpa]
        rw [hfilter]
        rcases hfp : t.filter (fun i => decide (κ i = col)) with _ | ⟨b, bs⟩
        · simp [dictGet?_dictSet_ne _ _ hpa]
        · rcases hbl : (b :: bs).getLast? with _ | m
          · exact absurd hbl (by simp)
          · simp

theorem keyCount_dictSet_ge (d : List (Color × ℚ)) (key col : Color) (v : ℚ) :
    keyCount d col ≤ keyCount (dictSet d key v) col := by
  by_cases hk : key = col
  · subst hk
    rw [keyCount_dictSet_self]
    exact le_max_left _ _
  · rw [keyCount_dictSet_ne _ _ hk]

theorem keyCount_foldl_dictSet_le {ι : Type} (κ : ι → Color) (w : ι → ℚ)
    (col : Color) :
    ∀ (l : List ι) (d : List (Color × ℚ)), keyCount d col ≤ 1 →
      keyCount (l.foldl (fun acc i => dictSet acc (κ i) (w i)) d) col ≤ 1 := by
  intro l
  induction l with
  | nil => intro d hd; simpa using hd
  | cons a t ih =>
      intro d hd
      simp only [List.foldl_cons]
      refine ih (dictSet d (κ a) (w a)) ?_
      by_cases hk : κ a = col
      · subst hk
        rw [keyCount_dictSet_self]
        omega
      · rw [keyCount_dictSet_ne _ _ hk]
        exact hd

theorem keyCount_foldl_dictSet_ge {ι : Type} (κ : ι → Color) (w : ι → ℚ)
    (col : Color) :
    ∀ (l : List ι) (d : List (Color × ℚ)),
      keyCount d col ≤
        keyCount (l.foldl (fun acc i => dictSet acc (κ i) (w i)) d) col := by
  intro l
  induction l with
  | nil => intro d; simp
  | cons a t ih =>
      intro d
      simp only [List.foldl_cons]
      exact le_trans (keyCount_dictSet_ge d (κ a) col (w a))
        (ih (dictSet d (κ a) (w a)))

theorem keyCount_foldl_dictSet_pos {ι : Type} (κ : ι → Color) (w : ι → ℚ)
    {col : Color} :
    ∀ (l : List ι) (d : List (Color × ℚ)), (∃ i ∈ l, κ i = col) →
      1 ≤ keyCount (l.foldl (fun acc i => dictSet acc (κ i) (w i)) d) col := by
  intro l
  induction l with
  | nil => intro d h; simp at h
  | cons a t ih =>
      intro d ⟨i, hi, hκ⟩
      simp only [List.foldl_cons]
      rcases List.mem_cons.mp hi with h | h
      · subst h
        refine le_trans ?_ (keyCount_foldl_dictSet_ge κ w col t _)
        subst hκ
        rw [keyCount_dictSet_self]
        omega
      · exact ih (dictSet d (κ a) (w a)) ⟨i, h, hκ⟩

/-! ### The per-image percentage dict -/

theorem sum_count_finRange (k : ℕ) (l : List (Fin k)) :
    ((List.finRange k).map fun i => l.count i).sum = l.length := by
  have h1 : ((List.finRange k).map fun i => l.count i).sum
      = ∑ i ∈ (List.finRange k).toFinset, l.count i :=
    (List.sum_toFinset _ (List.nodup_finRange k)).symm
  rw [h1, List.toFinset_finRange]
  have h2 : ∑ i ∈ l.toFinset, l.count i = ∑ i ∈ Finset.univ, l.count i := by
    refine Finset.sum_subset (Finset.subset_univ _) ?_
    intro x _ hx
    exact List.count_eq_zero.mpr fun hmem => hx (List.mem_toFinset.mpr hmem)
  rw [← h2, List.sum_toFinset_count_eq_length]

theorem colorPercentages_nonneg (k : ℕ) (c : Clustering k) (N : ℕ) :
    ∀ e ∈ colorPercentages k c N, 0 ≤ e.2 := by
  unfold colorPercentages
  refine foldl_dictSet_nonneg _ _ ?_ _ _ ?_
  · intro i
    positivity
  · intro e he
    simp at he

theorem valuesSum_colorPercentages {k N : ℕ} (c : Clustering k)
    (hN : N ≠ 0) (hlen : c.labels.length = N)
    (hinj : Function.Injective c.centers) :
    valuesSum (colorPercentages k c N) = 100 := by
  unfold colorPercentages
  rw [valuesSum_foldl_dictSet _ _ _ []
    ((List.nodup_finRange k).map hinj) (by intro i _ e he; simp at he)]
  have hfun : (fun i : Fin k => (c.labels.count i : ℚ) / (N : ℚ) * 100)
      = fun i : Fin k => (c.labels.count i : ℚ) * (100 / (N : ℚ)) :=
    funext fun i => by ring
  rw [hfun, List.sum_map_mul_right]
  have hcast :
      (((List.finRange k).map fun i => c.labels.count i).sum : ℚ)
        = ((List.finRange k).map fun i => (c.labels.count i : ℚ)).sum := by
    rw [Nat.cast_list_sum, List.map_map]
    rfl
  rw [← hcast, sum_count_finRange, hlen]
  have hNQ : (N : ℚ) ≠ 0 := Nat.cast_ne_zero.mpr hN
  field_simp [valuesSum]

/-! ### Lemmas about the single-image analyzer -/

theorem analyze_nonneg {k : ℕ} {dec : Option Image} {cl : Option (Clustering k)}
    {d : List (Color × ℚ)}
    (h : analyze_image_grouped_colors k dec cl = some d) :
    ∀ e ∈ d, 0 ≤ e.2 := by
  rcases dec with _ | img
  · simp [analyze_image_grouped_colors] at h
  · by_cases hz : (includedPixels img).length = 0
    · simp [analyze_image_grouped_colors, hz] at h
      intro e he
      rw [h] at he
      simp at he
    · rcases cl with _ | c
      · simp [analyze_image_grouped_colors, hz] at h
      · simp only [analyze_image_grouped_colors, hz, if_neg] at h
        have hd : d = colorPercentages k c (includedPixels img).length := by
          simpa using h.symm
        rw [hd]
        exact colorPercentages_nonneg _ _ _

/-! ### Lemmas about the folder loop -/

theorem processFile_not_selected {k : ℕ} (st : List (Color × ℚ) × ℕ)
    {f : SpriteFile k} (h : pngSelected f.name = false) :
    processFile k st f = st := by
  simp [processFile, h]

theorem processFile_analysis_none {k : ℕ} (st : List (Color × ℚ) × ℕ)
    {f : SpriteFile k}
    (h : analyze_image_grouped_colors k f.decode1 f.cluster = none) :
    processFile k st f = st := by
  unfold processFile
  rw [h]
  simp

theorem processFile_analysis_empty {k : ℕ} (st : List (Color × ℚ) × ℕ)
    {f : SpriteFile k}
    (h : analyze_image_grouped_colors k f.decode1 f.cluster = some []) :
    processFile k st f = st := by
  unfold processFile
  rw [h]
  simp

theorem processFile_decode2_none {k : ℕ} (st : List (Color × ℚ) × ℕ)
    {f : SpriteFile k} (h : f.decode2 = none) :
    processFile k st f = st := by
  unfold processFile
  rcases ha : analyze_image_grouped_colors k f.decode1 f.cluster with _ | d
  · simp
  · rcases d with _ | ⟨e, d⟩
    · simp
    · rw [h]
      simp

theorem processFile_contrib {k : ℕ} (st : List (Color × ℚ) × ℕ)
    {f : SpriteFile k} {img : Image} {d : List (Color × ℚ)}
    (hsel : pngSelected f.name = true)
    (ha : analyze_image_grouped_colors k f.decode1 f.cluster = some d)
    (hd : d ≠ []) (h2 : f.decode2 = some img) :
    processFile k st f =
      (d.foldl
        (fun acc e => counterAdd acc e.1 (e.2 / 100 * (includedCount img : ℚ)))
        st.1,
       st.2 + includedCount img) := by
  unfold processFile
  rw [hsel, ha, h2]
  simp [List.isEmpty_iff, hd]

theorem processFile_cases (k : ℕ) (st : List (Color × ℚ) × ℕ)
    (f : SpriteFile k) :
    processFile k st f = st ∨
    ∃ img d, f.decode2 = some img ∧
      analyze_image_grouped_colors k f.decode1 f.cluster = some d ∧ d ≠ [] ∧
      pngSelected f.name = true ∧
      processFile k st f =
        (d.foldl
          (fun acc e =>
            counterAdd acc e.1 (e.2 / 100 * (includedCount img : ℚ)))
          st.1,
         st.2 + includedCount img) := by
  by_cases hsel : pngSelected f.name
  · rcases ha : analyze_image_grouped_colors k f.decode1 f.cluster with _ | d
    · exact Or.inl (processFile_analysis_none st ha)
    · rcases d with _ | ⟨e, d0⟩
      · exact Or.inl (processFile_analysis_empty st ha)
      · rcases h2 : f.decode2 with _ | img
        · exact Or.inl (processFile_decode2_none st h2)
        · exact Or.inr ⟨img, e :: d0, rfl, rfl, by simp, hsel,
            processFile_contrib st hsel ha (by simp) h2⟩
  · exact Or.inl (processFile_not_selected st (by simpa using hsel))

theorem valuesSum_foldl_counterAdd (g : Color × ℚ → ℚ) :
    ∀ (d : List (Color × ℚ)) (acc : List (Color × ℚ)),
      valuesSum (d.foldl (fun acc e => counterAdd acc e.1 (g e)) acc)
        = valuesSum acc + (d.map g).sum := by
  intro d
  induction d with
  | nil => intro acc; simp
  | cons e t ih =>
      intro acc
      simp only [List.foldl_cons, List.map_cons, List.sum_cons]
      rw [ih, valuesSum_counterAdd]
      ring

theorem foldl_counterAdd_nonneg {g : Color × ℚ → ℚ} :
    ∀ (d : List (Color × ℚ)) (acc : List (Color × ℚ)),
      (∀ e ∈ acc, 0 ≤ e.2) → (∀ e ∈ d, 0 ≤ g e) →
      ∀ e ∈ d.foldl (fun acc e => counterAdd acc e.1 (g e)) acc, 0 ≤ e.2 := by
  intro d
  induction d with
  | nil => intro acc hacc _; simpa using hacc
  | cons e t ih =>
      intro acc hacc hg
      simp only [List.foldl_cons]
      refine ih _ ?_ fun x hx => hg x (List.mem_cons_of_mem _ hx)
      exact counterAdd_nonneg hacc (hg e (List.mem_cons_self _ _))

theorem aggState_nonneg (k : ℕ) (files : List (SpriteFile k)) :
    ∀ e ∈ (aggState k files).1, 0 ≤ e.2 := by
  suffices h : ∀ (fs : List (SpriteFile k)) (st : List (Color × ℚ) × ℕ),
      (∀ e ∈ st.1, 0 ≤ e.2) →
      ∀ e ∈ (fs.foldl (processFile k) st).1, 0 ≤ e.2 by
    refine h files ([], 0) ?_
    intro e he
    simp at he
  intro fs
  induction fs with
  | nil => intro st hst; simpa using hst
  | cons f t ih =>
      intro st hst
      simp only [List.foldl_cons]
      refine ih (processFile k st f) ?_
      rcases processFile_cases k st f with h | ⟨img, d, _, ha, _, _, h⟩
      · rw [h]; exact hst
      · rw [h]
        refine foldl_counterAdd_nonneg d st.1 hst ?_
        intro e he
        have := analyze_nonneg ha e he
        positivity

theorem aggState_valuesSum (k : ℕ) (files : List (SpriteFile k))
    (hv : ∀ f ∈ files, ∀ d,
      analyze_image_grouped_colors k f.decode1 f.cluster = some d →
      d ≠ [] → valuesSum d = 100) :
    valuesSum (aggState k files).1 = ((aggState k files).2 : ℚ) := by
  suffices h : ∀ (fs : List (SpriteFile k)) (st : List (Color × ℚ) × ℕ),
      (∀ f ∈ fs, ∀ d,
        analyze_image_grouped_colors k f.decode1 f.cluster = some d →
        d ≠ [] → valuesSum d = 100) →
      valuesSum st.1 = (st.2 : ℚ) →
      valuesSum (fs.foldl (processFile k) st).1
        = ((fs.foldl (processFile k) st).2 : ℚ) by
    exact h files ([], 0) hv (by simp [valuesSum])
  intro fs
  induction fs with
  | nil => intro st _ hst; simpa using hst
  | cons f t ih =>
      intro st hfs hst
      simp only [List.foldl_cons]
      refine ih (processFile k st f)
        (fun g hg => hfs g (List.mem_cons_of_mem _ hg)) ?_
      rcases processFile_cases k st f with h | ⟨img, d, _, ha, hd, _, h⟩
      · rw [h]; exact hst
      · rw [h]
        simp only
        rw [valuesSum_foldl_counterAdd]
        have hsum : valuesSum d = 100 :=
          hfs f (List.mem_cons_self _ _) d ha hd
        have hmap : (d.map fun e => e.2 / 100 * (includedCount img : ℚ)).sum
            = valuesSum d * ((includedCount img : ℚ) / 100) := by
          have hfun : (fun e : Color × ℚ => e.2 / 100 * (includedCount img : ℚ))
              = fun e : Color × ℚ => e.2 * ((includedCount img : ℚ) / 100) :=
            funext fun e => by ring
          rw [hfun]
          have := List.sum_map_mul_right d (fun e : Color × ℚ => e.2)
            ((includedCount img : ℚ) / 100)
          simpa [valuesSum] using this
        rw [hmap, hsum, hst]
        push_cast
        ring

theorem includedCount_eq_length_includedPixels (img : Image) :
    includedCount img = (includedPixels img).length := by
  cases img with
  | rgb ps => rfl
  | rgba ps => simp [includedCount, includedPixels]

theorem foldl_processFile_id {k : ℕ} :
    ∀ (fs : List (SpriteFile k)) (st : List (Color × ℚ) × ℕ),
      (∀ f ∈ fs, ∀ st0 : List (Color × ℚ) × ℕ, processFile k st0 f = st0) →
      fs.foldl (processFile k) st = st := by
  intro fs
  induction fs with
  | nil => intro st _; rfl
  | cons f t ih =>
      intro st h
      simp only [List.foldl_cons]
      rw [h f (List.mem_cons_self _ _) st]
      exact ih st fun g hg => h g (List.mem_cons_of_mem _ hg)

theorem le_getLast_of_sorted {α : Type} [Preorder α] :
    ∀ (l : List α), l.Pairwise (· < ·) →
      ∀ x ∈ l, ∀ m ∈ l.getLast?, x ≤ m := by
  intro l
  induction l with
  | nil => intro _ x hx; simp at hx
  | cons a t ih =>
      intro hp x hx m hm
      rcases t with _ | ⟨b, bs⟩
      · have hxa : x = a := by simpa using hx
        have hma : m = a := by
          have := hm
          simp only [List.getLast?_singleton, Option.mem_def,
            Option.some.injEq] at this
          exact this.symm
        rw [hxa, hma]
      · rw [List.getLast?_cons_cons] at hm
        have hp2 := List.pairwise_cons.mp hp
        rcases List.mem_cons.mp hx with h | h
        · have hmm : m ∈ b :: bs := by
            rcases List.mem_getLast?_eq_getLast hm with ⟨hne, hmg⟩
            exact hmg ▸ List.getLast_mem hne
          exact le_of_lt (h ▸ hp2.1 m hmm)
        · exact ih hp2.2 x h m hm

theorem count_fin_one (l : List (Fin 1)) : l.count 0 = l.length :=
  List.count_eq_length.mpr fun b _ => Subsingleton.elim 0 b

theorem colorPercentages_k1 (c : Clustering 1) (N : ℕ)
    (hlen : c.labels.length = N) (hN : N ≠ 0) :
    colorPercentages 1 c N = [(c.centers 0, 100)] := by
  have hfr : List.finRange 1 = [0] := rfl
  unfold colorPercentages
  rw [hfr]
  simp only [List.foldl_cons, List.foldl_nil, dictSet]
  have hc : c.labels.count 0 = N := by rw [count_fin_one, hlen]
  rw [hc]
  have hNQ : (N : ℚ) ≠ 0 := Nat.cast_ne_zero.mpr hN
  congr 1
  field_simp

theorem analyze_k1_mono {f : SpriteFile 1} {img : Image} {c : Clustering 1}
    {C : Color} (h1 : f.decode1 = some img) (hc : f.cluster = some c)
    (hlen : c.labels.length = (includedPixels img).length)
    (hcen : c.centers 0 = C) (hne : includedPixels img ≠ []) :
    analyze_image_grouped_colors 1 f.decode1 f.cluster = some [(C, 100)] := by
  rw [h1, hc]
  have hz : ¬(includedPixels img).length = 0 :=
    fun h => hne (List.length_eq_zero.mp h)
  simp only [analyze_image_grouped_colors, hz, if_neg, ite_false]
  rw [colorPercentages_k1 c _ hlen hz, hcen]

theorem processFile_k1_mono {st : List (Color × ℚ) × ℕ} {f : SpriteFile 1}
    {img : Image} {c : Clustering 1} {C : Color}
    (hsel : pngSelected f.name = true)
    (h1 : f.decode1 = some img) (h2 : f.decode2 = some img)
    (hc : f.cluster = some c)
    (hlen : c.labels.length = (includedPixels img).length)
    (hcen : c.centers 0 = C) (hne : includedPixels img ≠ []) :
    processFile 1 st f
      = (counterAdd st.1 C ((includedPixels img).length : ℚ),
         st.2 + (includedPixels img).length) := by
  have ha := analyze_k1_mono h1 hc hlen hcen hne
  rw [processFile_contrib st hsel ha (by simp) h2]
  rw [includedCount_eq_length_includedPixels]
  congr 1
  simp only [List.foldl_cons, List.foldl_nil]
  congr 1
  ring

theorem valuesSum_map_scale (l : List (Color × ℚ)) (q : ℚ) :
    valuesSum (l.map fun e => (e.1, e.2 / q * 100)) = valuesSum l * (100 / q) := by
  induction l with
  | nil => simp [valuesSum]
  | cons e t ih =>
      simp only [List.map_cons, valuesSum, List.sum_cons] at ih ⊢
      rw [ih]
      ring

theorem folder_of_aggState {k : ℕ} {files : List (SpriteFile k)} {C : Color}
    {T : ℕ} (h : aggState k files = ([(C, (T : ℚ))], T)) (hT : T ≠ 0) :
    analyze_folder_grouped_colors k files = [(C, 100)] := by
  have hTQ : (T : ℚ) ≠ 0 := Nat.cast_ne_zero.mpr hT
  show (if (aggState k files).2 = 0 then []
    else (aggState k files).1.map
      fun e => (e.1, e.2 / ((aggState k files).2 : ℚ) * 100)) = [(C, 100)]
  rw [h]
  simp only [if_neg hT, List.map_cons, List.map_nil]
  rw [div_self hTQ]
  norm_num

/-! ### C4: the pixel inclusion rule -/

/-- C4: when the decoded image has a transparency channel, a pixel enters the
sample set iff its alpha value is strictly positive; with 3 channels every
pixel enters; and the count the folder aggregator recomputes (lines 87-91)
always equals the number of pixels the analyzer samples (lines 28-33), so
alpha-zero pixels never enter sampling, counting, or denominators. -/
theorem C4_pixel_inclusion_rule :
    (∀ ps : List (Pixel × ℤ),
      includedPixels (Image.rgba ps)
        = (ps.filter fun p => 0 < p.2).map Prod.fst)
    ∧ (∀ ps : List Pixel, includedPixels (Image.rgb ps) = ps)
    ∧ (∀ (ps : List (Pixel × ℤ)) (c : Pixel),
        c ∈ includedPixels (Image.rgba ps) ↔ ∃ a, (c, a) ∈ ps ∧ 0 < a)
    ∧ (∀ img : Image, includedCount img = (includedPixels img).length) := by
  refine ⟨fun ps => rfl, fun ps => rfl, ?_,
    includedCount_eq_length_includedPixels⟩
  intro ps c
  constructor
  · intro hc
    simp only [includedPixels, List.mem_map] at hc
    obtain ⟨p, hp, hpc⟩ := hc
    have hpf := List.mem_filter.mp hp
    refine ⟨p.2, ?_, by simpa using hpf.2⟩
    have hpe : (c, p.2) = p := by rw [← hpc]
    rw [hpe]
    exact hpf.1
  · rintro ⟨a, ha, hpos⟩
    simp only [includedPixels, List.mem_map]
    exact ⟨(c, a), List.mem_filter.mpr ⟨ha, by simpa using hpos⟩, rfl⟩

/-! ### C6: zero included pixels give an empty distribution -/

/-- C6: an image with no included pixels (e.g. fully transparent) makes
`analyze_image_grouped_colors` return the empty distribution, not a
failure: line 36-37 returns `{}` before clustering is attempted. -/
theorem C6_zero_pixels_empty_distribution (k : ℕ) (img : Image)
    (cl : Option (Clustering k)) (h : includedPixels img = []) :
    analyze_image_grouped_colors k (some img) cl = some [] := by
  simp [analyze_image_grouped_colors, h]

/-- C6 witness: the fully transparent 2-pixel image analyzed with K = 5 and
a failing clustering oracle still yields `some {}` (clustering is never
reached). -/
theorem C6_witness :
    analyze_image_grouped_colors 5 (some imgTransparent) none = some [] :=
  C6_zero_pixels_empty_distribution 5 imgTransparent none (by decide)

/-! ### C7: every error path surfaces as a null result -/

/-- C7: the analyzer is a total function into `Option`: its result is `none`
exactly on the error paths — decode failure (line 24-26) or a clustering
exception on a non-empty sample set (lines 40-41 under the `except` of
line 55) — and never a partial distribution there. -/
theorem C7_errors_surface_as_none (k : ℕ) (dec : Option Image)
    (cl : Option (Clustering k)) :
    analyze_image_grouped_colors k dec cl = none ↔
      dec = none ∨
        ∃ img, dec = some img ∧ includedPixels img ≠ [] ∧ cl = none := by
  rcases dec with _ | img
  · simp [analyze_image_grouped_colors]
  · by_cases hz : (includedPixels img).length = 0
    · have he : includedPixels img = [] := List.length_eq_zero.mp hz
      simp [analyze_image_grouped_colors, hz, he]
    · have hne : includedPixels img ≠ [] :=
        fun h => hz (by rw [h]; rfl)
      rcases cl with _ | c
      · simp [analyze_image_grouped_colors, hz, hne]
      · simp [analyze_image_grouped_colors, hz]

/-! ### C9: case-insensitive ".png" selection -/

/-- C9: a directory entry is selected iff its name ends with ".png" after
lowercasing — the code's `name.lower().endswith(".png")` coincides with
case-insensitive suffix matching because ".png" is already lowercase;
"IMG.PNG" is selected, "img.jpg" is not, and an unselected file leaves the
aggregator state untouched. -/
theorem C9_png_suffix_selection :
    (∀ name : List Char,
      pngSelected name = caseInsensitiveEndsWith name pngSuffix)
    ∧ pngSelected ['I', 'M', 'G', '.', 'P', 'N', 'G'] = true
    ∧ pngSelected ['i', 'm', 'g', '.', 'j', 'p', 'g'] = false
    ∧ (∀ (k : ℕ) (st : List (Color × ℚ) × ℕ) (f : SpriteFile k),
        pngSelected f.name = false → processFile k st f = st) := by
  refine ⟨?_, by decide, by decide,
    fun k st f h => processFile_not_selected st h⟩
  intro name
  have h : pngSuffix.map Char.toLower = pngSuffix := by decide
  rw [caseInsensitiveEndsWith, h]
  rfl

/-- C9 witness: the concrete "img.jpg" entry is not selected and leaves a
concrete aggregator state unchanged. -/
theorem C9_witness :
    processFile 2 ([((7, 7, 7), 3)], 3) fileJpg2 = ([((7, 7, 7), 3)], 3) :=
  C9_png_suffix_selection.2.2.2 2 ([((7, 7, 7), 3)], 3) fileJpg2 (by decide)

/-! ### C3: representative-color collision, last cluster wins -/

/-- C3: when two distinct clusters round to the same representative color,
the returned dict carries that color exactly once, and its value is the
percentage of the last cluster processed among those sharing the color
(the dict assignment of line 51 overwrites the earlier clusters' values). -/
theorem C3_collision_last_cluster_wins (k N : ℕ) (c : Clustering k)
    (i j : Fin k) (_hij : i ≠ j) (_hcol : c.centers i = c.centers j) :
    keyCount (colorPercentages k c N) (c.centers i) = 1 ∧
    ∃ m : Fin k, c.centers m = c.centers i ∧
      (∀ i2 : Fin k, c.centers i2 = c.centers i → i2 ≤ m) ∧
      dictGet? (colorPercentages k c N) (c.centers i)
        = some ((c.labels.count m : ℚ) / (N : ℚ) * 100) := by
  constructor
  · have hle := keyCount_foldl_dictSet_le (fun x : Fin k => c.centers x)
      (fun x => (c.labels.count x : ℚ) / (N : ℚ) * 100) (c.centers i)
      (List.finRange k) [] (by simp [keyCount])
    have hpos := keyCount_foldl_dictSet_pos (fun x : Fin k => c.centers x)
      (fun x => (c.labels.count x : ℚ) / (N : ℚ) * 100)
      (List.finRange k) [] ⟨i, List.mem_finRange i, rfl⟩
    exact le_antisymm hle hpos
  · have hget := dictGet?_foldl_dictSet (fun x : Fin k => c.centers x)
      (fun x => (c.labels.count x : ℚ) / (N : ℚ) * 100) (c.centers i)
      (List.finRange k) []
    set fl := (List.finRange k).filter
      (fun x => decide (c.centers x = c.centers i)) with hfldef
    have hifl : i ∈ fl :=
      List.mem_filter.mpr ⟨List.mem_finRange i, by simp⟩
    have hflne : fl ≠ [] := List.ne_nil_of_mem hifl
    rcases hl : fl.getLast? with _ | m
    · exact absurd (List.getLast?_eq_none_iff.mp hl) hflne
    · have hmlast : m ∈ fl.getLast? := by rw [hl]; rfl
      have hmfl : m ∈ fl := by
        rcases List.mem_getLast?_eq_getLast hmlast with ⟨h1, h2⟩
        exact h2 ▸ List.getLast_mem h1
      have hmc : c.centers m = c.centers i := by
        have := (List.mem_filter.mp hmfl).2
        simpa using this
      refine ⟨m, hmc, ?_, ?_⟩
      · intro i2 hi2
        have hi2fl : i2 ∈ fl :=
          List.mem_filter.mpr ⟨List.mem_finRange i2, by simp [hi2]⟩
        exact le_getLast_of_sorted fl
          ((List.pairwise_lt_finRange k).filter _) i2 hi2fl m hmlast
      · have h2 : dictGet? (colorPercentages k c N) (c.centers i)
            = (fl.getLast?).elim (dictGet? [] (c.centers i))
                (fun m2 => some ((c.labels.count m2 : ℚ) / (N : ℚ) * 100)) :=
          hget
        rw [h2, hl]
        rfl

/-- C3 witness: with K = 2, both centroids truncating to (0, 0, 0) and one
sample in each cluster, the dict carries (0, 0, 0) once, with the value of
cluster 1, the last one processed. -/
theorem C3_witness :
    keyCount (colorPercentages 2 clCollide 2) (clCollide.centers 0) = 1 ∧
    ∃ m : Fin 2, clCollide.centers m = clCollide.centers 0 ∧
      (∀ i2 : Fin 2, clCollide.centers i2 = clCollide.centers 0 → i2 ≤ m) ∧
      dictGet? (colorPercentages 2 clCollide 2) (clCollide.centers 0)
        = some ((clCollide.labels.count m : ℚ) / ((2 : ℕ) : ℚ) * 100) :=
  C3_collision_last_cluster_wins 2 2 clCollide 0 1 (by decide) rfl

/-! ### C5: a corrupt file is skipped, the batch continues -/

/-- C5: a file whose decode fails (the analyzer returns `None`) contributes
nothing: the folder distribution is the same as if the file were absent,
wherever in the listing it appears, and the loop never aborts. -/
theorem C5_corrupt_file_skipped (k : ℕ) (pre post : List (SpriteFile k))
    (f : SpriteFile k) (h : f.decode1 = none) :
    analyze_folder_grouped_colors k (pre ++ f :: post)
      = analyze_folder_grouped_colors k (pre ++ post) := by
  have hid : ∀ st : List (Color × ℚ) × ℕ, processFile k st f = st := by
    intro st
    refine processFile_analysis_none st ?_
    rw [h]
    rfl
  unfold analyze_folder_grouped_colors aggState
  rw [List.foldl_append, List.foldl_append, List.foldl_cons, hid]

/-- C5 witness: a folder holding the readable `fileAB` and the corrupt
`fileBad` yields the same distribution as the folder without `fileBad`. -/
theorem C5_witness :
    analyze_folder_grouped_colors 2 ([fileAB] ++ fileBad :: [])
      = analyze_folder_grouped_colors 2 ([fileAB] ++ []) :=
  C5_corrupt_file_skipped 2 [fileAB] [] fileBad rfl

/-! ### C8: zero grand total gives an empty distribution -/

/-- C8: whenever the grand pixel total accumulated over the folder is zero —
in particular when no entry has the ".png" suffix, or when every analysis
fails — the aggregator returns the empty distribution (lines 99-100). -/
theorem C8_zero_grand_total_empty (k : ℕ) (files : List (SpriteFile k)) :
    ((aggState k files).2 = 0 → analyze_folder_grouped_colors k files = [])
    ∧ ((∀ f ∈ files, pngSelected f.name = false) →
        analyze_folder_grouped_colors k files = [])
    ∧ ((∀ f ∈ files, f.decode1 = none) →
        analyze_folder_grouped_colors k files = []) := by
  refine ⟨?_, ?_, ?_⟩
  · intro h
    show (if (aggState k files).2 = 0 then []
      else (aggState k files).1.map
        fun e => (e.1, e.2 / ((aggState k files).2 : ℚ) * 100)) = []
    rw [if_pos h]
  · intro h
    have hagg : aggState k files = ([], 0) :=
      foldl_processFile_id files ([], 0)
        (fun f hf st0 => processFile_not_selected st0 (h f hf))
    show (if (aggState k files).2 = 0 then []
      else (aggState k files).1.map
        fun e => (e.1, e.2 / ((aggState k files).2 : ℚ) * 100)) = []
    rw [hagg]
    rfl
  · intro h
    have hagg : aggState k files = ([], 0) :=
      foldl_processFile_id files ([], 0)
        (fun f hf st0 => processFile_analysis_none st0 (by rw [h f hf]; rfl))
    show (if (aggState k files).2 = 0 then []
      else (aggState k files).1.map
        fun e => (e.1, e.2 / ((aggState k files).2 : ℚ) * 100)) = []
    rw [hagg]
    rfl

/-- C8 witness: a folder whose only entry is named "img.jpg" produces the
empty distribution. -/
theorem C8_witness : analyze_folder_grouped_colors 2 [fileJpg2] = [] :=
  (C8_zero_grand_total_empty 2 [fileJpg2]).2.1 (by
    intro f hf
    have hf2 : f = fileJpg2 := by simpa using hf
    rw [hf2]
    decide)

/-! ### C10: the two accumulators move together -/

/-- C10: for each directory entry the loop either leaves both accumulators
unchanged or updates both: the grand total grows by the recomputed pixel
count exactly when the per-color counts absorb the file's dict; an entry
whose analysis is the empty dict, or whose second decode returns `None`,
contributes to neither accumulator. -/
theorem C10_accumulators_atomic (k : ℕ) (st : List (Color × ℚ) × ℕ)
    (f : SpriteFile k) :
    (processFile k st f = st ∨
      ∃ img d, f.decode2 = some img ∧
        analyze_image_grouped_colors k f.decode1 f.cluster = some d ∧
        d ≠ [] ∧ pngSelected f.name = true ∧
        processFile k st f =
          (d.foldl (fun acc e =>
              counterAdd acc e.1 (e.2 / 100 * (includedCount img : ℚ))) st.1,
           st.2 + includedCount img))
    ∧ (analyze_image_grouped_colors k f.decode1 f.cluster = some [] →
        processFile k st f = st)
    ∧ (f.decode2 = none → processFile k st f = st) :=
  ⟨processFile_cases k st f,
   fun h => processFile_analysis_empty st h,
   fun h => processFile_decode2_none st h⟩

/-- C10 witness: the entry with a failing second decode and the fully
transparent entry (empty per-image dict) both leave a concrete nonzero
state untouched. -/
theorem C10_witness :
    processFile 2 ([((7, 7, 7), 3)], 3) fileNoDecode2 = ([((7, 7, 7), 3)], 3)
    ∧ processFile 2 ([((7, 7, 7), 3)], 3) fileTransparent
        = ([((7, 7, 7), 3)], 3) :=
  ⟨(C10_accumulators_atomic 2 ([((7, 7, 7), 3)], 3) fileNoDecode2).2.2 rfl,
   (C10_accumulators_atomic 2 ([((7, 7, 7), 3)], 3) fileTransparent).2.1
     (by decide)⟩

/-! ### C1: non-negativity and the percentage sum -/

/-- C1 counterexample: on a non-empty 2-pixel image, a K-Means outcome whose
two distinct clusters truncate to the same representative color — one pixel
per cluster — makes the analyzer return a one-entry dict whose percentages
sum to 50, far outside any ±0.01 tolerance of 100: the dict assignment of
line 51 overwrote cluster 0's 50 with cluster 1's 50. -/
theorem C1_counterexample :
    analyze_image_grouped_colors 2 (some (Image.rgb [(0, 0, 0), (1, 1, 1)]))
        (some clCollide) = some [((0, 0, 0), 50)]
    ∧ (includedPixels (Image.rgb [(0, 0, 0), (1, 1, 1)])).length = 2
    ∧ clCollide.labels.length
        = (includedPixels (Image.rgb [(0, 0, 0), (1, 1, 1)])).length
    ∧ valuesSum [((0, 0, 0), (50 : ℚ))] = 50
    ∧ ¬|valuesSum [((0, 0, 0), (50 : ℚ))] - 100| ≤ 1 / 100 := by
  refine ⟨?_, by decide, by decide, by simp [valuesSum], ?_⟩
  · simp [analyze_image_grouped_colors, includedPixels, colorPercentages,
      clCollide, List.finRange, dictSet, List.count, List.countP,
      List.countP.go]
    norm_num
  · simp [valuesSum]
    norm_num

/-- C1 (amended): all percentages returned by the analyzer are non-negative,
and they sum to exactly 100 when the K truncated representative colors are
pairwise distinct; likewise every aggregate percentage is non-negative, and
a non-empty aggregate distribution sums to exactly 100 when each decodable
file's clustering labels every sample and has pairwise distinct
representative colors.  (When two clusters share a representative color the
dict assignment of line 51 drops the earlier cluster's share, so the
per-image sum can fall below 100 — hence the distinctness proviso.) -/
theorem C1_amended_percentages :
    (∀ (k : ℕ) (dec : Option Image) (cl : Option (Clustering k))
        (d : List (Color × ℚ)),
      analyze_image_grouped_colors k dec cl = some d → ∀ e ∈ d, 0 ≤ e.2)
    ∧ (∀ (k : ℕ) (img : Image) (c : Clustering k) (d : List (Color × ℚ)),
        analyze_image_grouped_colors k (some img) (some c) = some d →
        includedPixels img ≠ [] →
        c.labels.length = (includedPixels img).length →
        Function.Injective c.centers →
        valuesSum d = 100)
    ∧ (∀ (k : ℕ) (files : List (SpriteFile k)),
        ∀ e ∈ analyze_folder_grouped_colors k files, 0 ≤ e.2)
    ∧ (∀ (k : ℕ) (files : List (SpriteFile k)),
        (∀ f ∈ files, ∀ img c, f.decode1 = some img → f.cluster = some c →
          c.labels.length = (includedPixels img).length ∧
          Function.Injective c.centers) →
        analyze_folder_grouped_colors k files ≠ [] →
        valuesSum (analyze_folder_grouped_colors k files) = 100) := by
  refine ⟨fun k dec cl d h => analyze_nonneg h, ?_, ?_, ?_⟩
  · intro k img c d h hne hlen hinj
    have hz : ¬(includedPixels img).length = 0 :=
      fun h0 => hne (List.length_eq_zero.mp h0)
    have hd : d = colorPercentages k c (includedPixels img).length := by
      simp [analyze_image_grouped_colors, hz] at h
      exact h.symm
    rw [hd]
    exact valuesSum_colorPercentages c hz hlen hinj
  · intro k files e he
    by_cases hz : (aggState k files).2 = 0
    · have : analyze_folder_grouped_colors k files = [] := by
        show (if (aggState k files).2 = 0 then []
          else (aggState k files).1.map
            fun x => (x.1, x.2 / ((aggState k files).2 : ℚ) * 100)) = []
        rw [if_pos hz]
      rw [this] at he
      simp at he
    · have hres : analyze_folder_grouped_colors k files
          = (aggState k files).1.map
              fun x => (x.1, x.2 / ((aggState k files).2 : ℚ) * 100) := by
        show (if (aggState k files).2 = 0 then []
          else (aggState k files).1.map
            fun x => (x.1, x.2 / ((aggState k files).2 : ℚ) * 100)) = _
        rw [if_neg hz]
      rw [hres] at he
      obtain ⟨x, hx, hxe⟩ := List.mem_map.mp he
      have h0 := aggState_nonneg k files x hx
      rw [← hxe]
      have hT : (0 : ℚ) ≤ ((aggState k files).2 : ℚ) := Nat.cast_nonneg _
      exact mul_nonneg (div_nonneg h0 hT) (by norm_num)
  · intro k files hf hres
    by_cases hz : (aggState k files).2 = 0
    · exact absurd (by
        show (if (aggState k files).2 = 0 then []
          else (aggState k files).1.map
            fun x => (x.1, x.2 / ((aggState k files).2 : ℚ) * 100)) = []
        rw [if_pos hz]) hres
    · have hsum := aggState_valuesSum k files ?good
      case good =>
        intro f hf2 d hd hdne
        rcases h1 : f.decode1 with _ | img
        · rw [h1] at hd
          simp [analyze_image_grouped_colors] at hd
        · rcases hc : f.cluster with _ | c
          · rw [h1, hc] at hd
            by_cases hz2 : (includedPixels img).length = 0
            · simp [analyze_image_grouped_colors, hz2] at hd
              exact absurd hd hdne
            · simp [analyze_image_grouped_colors, hz2] at hd
          · by_cases hz2 : (includedPixels img).length = 0
            · rw [h1, hc] at hd
              simp [analyze_image_grouped_colors, hz2] at hd
              exact absurd hd hdne
            · obtain ⟨hlen, hinj⟩ := hf f hf2 img c h1 hc
              rw [h1, hc] at hd
              simp [analyze_image_grouped_colors, hz2] at hd
              rw [← hd]
              exact valuesSum_colorPercentages c hz2 hlen hinj
      have hres2 : analyze_folder_grouped_colors k files
          = (aggState k files).1.map
              fun x => (x.1, x.2 / ((aggState k files).2 : ℚ) * 100) := by
        show (if (aggState k files).2 = 0 then []
          else (aggState k files).1.map
            fun x => (x.1, x.2 / ((aggState k files).2 : ℚ) * 100)) = _
        rw [if_neg hz]
      rw [hres2, valuesSum_map_scale, hsum]
      have hTQ : ((aggState k files).2 : ℚ) ≠ 0 := Nat.cast_ne_zero.mpr hz
      field_simp

/-- C1 witness: on the 2-pixel 2-color image with distinct representative
colors the per-image percentages sum to 100, and the one-file folder built
from it has a non-empty aggregate distribution summing to 100. -/
theorem C1_witness :
    valuesSum [((0, 0, 0), (50 : ℚ)), ((9, 9, 9), 50)] = 100
    ∧ valuesSum (analyze_folder_grouped_colors 2 [fileAB]) = 100 := by
  have h1 : analyze_image_grouped_colors 2 (some imgAB) (some clAB)
      = some [((0, 0, 0), 50), ((9, 9, 9), 50)] := by
    simp +decide [analyze_image_grouped_colors, includedPixels,
      colorPercentages, clAB, imgAB, List.finRange, dictSet, List.count,
      List.countP, List.countP.go, Prod.mk.injEq]
    norm_num
  have hfolder : analyze_folder_grouped_colors 2 [fileAB]
      = [((0, 0, 0), 50), ((9, 9, 9), 50)] := by
    simp +decide [analyze_folder_grouped_colors, aggState, processFile,
      fileAB, analyze_image_grouped_colors, includedPixels, includedCount,
      colorPercentages, clAB, imgAB, List.finRange, dictSet, counterAdd,
      pngSelected, pngSuffix, List.count, List.countP, List.countP.go,
      Prod.mk.injEq]
    norm_num
  refine ⟨C1_amended_percentages.2.1 2 imgAB clAB _ h1 (by decide) (by decide)
    (by decide), ?_⟩
  refine C1_amended_percentages.2.2.2 2 [fileAB] ?_ ?_
  · intro f hf img c hd hc
    have hfe : f = fileAB := by simpa using hf
    rw [hfe] at hd hc
    have himg : img = imgAB := by simpa [fileAB] using hd.symm
    have hcc : c = clAB := by simpa [fileAB] using hc.symm
    rw [himg, hcc]
    exact ⟨by decide, by decide⟩
  · rw [hfolder]
    simp

/-! ### C2: aggregation of two monochrome images -/

/-- C2 counterexample: two decodable monochrome files of the color (5, 5, 5)
with 1 and 2 included pixels, analyzed with K = 2 (a value of the
`n_clusters` parameter, whose default is 5).  On a monochrome image every
K-Means centroid truncates to the color itself and every sample joins
cluster 0, so the dict assignment of line 51 overwrites the 100% of cluster
0 with the 0% of the empty cluster 1, and the aggregate is `{(5,5,5): 0.0}`,
not `{(5,5,5): 100.0}`. -/
theorem C2_counterexample :
    analyze_folder_grouped_colors 2 [fileMono1, fileMono2] = [((5, 5, 5), 0)]
    ∧ dictGet? (analyze_folder_grouped_colors 2 [fileMono1, fileMono2])
        (5, 5, 5) = some 0
    ∧ analyze_folder_grouped_colors 2 [fileMono1, fileMono2]
        ≠ [((5, 5, 5), 100)] := by
  have h : analyze_folder_grouped_colors 2 [fileMono1, fileMono2]
      = [((5, 5, 5), 0)] := by
    simp +decide [analyze_folder_grouped_colors, aggState, processFile,
      fileMono1, fileMono2, analyze_image_grouped_colors, includedPixels,
      includedCount, colorPercentages, clMono1, clMono2, imgMono1, imgMono2,
      List.finRange, dictSet, counterAdd, Prod.mk.injEq, List.count,
      List.countP, List.countP.go]
  refine ⟨h, by rw [h]; rfl, by rw [h]; simp⟩

/-- C2 (amended): for a folder of exactly two ".png" files which decode (both
times) to images whose included pixels all have the color C, at least one
included pixel between them, analyzed with K = 1 under a valid clustering
outcome (one label per sample; the sole truncated centroid of a monochrome
sample set is C itself), the aggregate distribution is exactly
`{C: 100.0}`.  (With K ≥ 2 a monochrome image makes distinct clusters share
the representative color C and the claim fails, see the counterexample.) -/
theorem C2_amended_monochrome_aggregate (f1 f2 : SpriteFile 1)
    (img1 img2 : Image) (c1 c2 : Clustering 1) (C : Color)
    (hsel1 : pngSelected f1.name = true) (hsel2 : pngSelected f2.name = true)
    (h11 : f1.decode1 = some img1) (h12 : f1.decode2 = some img1)
    (h21 : f2.decode1 = some img2) (h22 : f2.decode2 = some img2)
    (hc1 : f1.cluster = some c1) (hc2 : f2.cluster = some c2)
    (hl1 : c1.labels.length = (includedPixels img1).length)
    (hl2 : c2.labels.length = (includedPixels img2).length)
    (_hp1 : ∀ p ∈ includedPixels img1, p = C)
    (_hp2 : ∀ p ∈ includedPixels img2, p = C)
    (hcen1 : c1.centers 0 = C) (hcen2 : c2.centers 0 = C)
    (hne : includedPixels img1 ≠ [] ∨ includedPixels img2 ≠ []) :
    analyze_folder_grouped_colors 1 [f1, f2] = [(C, 100)] := by
  have hana1e : includedPixels img1 = [] →
      analyze_image_grouped_colors 1 f1.decode1 f1.cluster = some [] := by
    intro e
    rw [h11]
    simp [analyze_image_grouped_colors, e]
  have hana2e : includedPixels img2 = [] →
      analyze_image_grouped_colors 1 f2.decode1 f2.cluster = some [] := by
    intro e
    rw [h21]
    simp [analyze_image_grouped_colors, e]
  by_cases e1 : includedPixels img1 = []
  · by_cases e2 : includedPixels img2 = []
    · rcases hne with h | h
      · exact absurd e1 h
      · exact absurd e2 h
    · have hst : aggState 1 [f1, f2]
          = ([(C, ((includedPixels img2).length : ℚ))],
             (includedPixels img2).length) := by
        unfold aggState
        rw [List.foldl_cons, List.foldl_cons, List.foldl_nil,
          processFile_analysis_empty _ (hana1e e1),
          processFile_k1_mono hsel2 h21 h22 hc2 hl2 hcen2 e2]
        simp [counterAdd]
      exact folder_of_aggState hst
        fun h0 => e2 (List.length_eq_zero.mp h0)
  · have hst1 : processFile 1 ([], 0) f1
        = ([(C, ((includedPixels img1).length : ℚ))],
           (includedPixels img1).length) := by
      rw [processFile_k1_mono hsel1 h11 h12 hc1 hl1 hcen1 e1]
      simp [counterAdd]
    by_cases e2 : includedPixels img2 = []
    · have hst : aggState 1 [f1, f2]
          = ([(C, ((includedPixels img1).length : ℚ))],
             (includedPixels img1).length) := by
        unfold aggState
        rw [List.foldl_cons, List.foldl_cons, List.foldl_nil, hst1,
          processFile_analysis_empty _ (hana2e e2)]
      exact folder_of_aggState hst
        fun h0 => e1 (List.length_eq_zero.mp h0)
    · have hst : aggState 1 [f1, f2]
          = ([(C, (((includedPixels img1).length
                + (includedPixels img2).length : ℕ) : ℚ))],
             (includedPixels img1).length + (includedPixels img2).length) := by
        unfold aggState
        rw [List.foldl_cons, List.foldl_cons, List.foldl_nil, hst1,
          processFile_k1_mono hsel2 h21 h22 hc2 hl2 hcen2 e2]
        simp [counterAdd]
      exact folder_of_aggState hst
        fun h0 => e1 (List.length_eq_zero.mp (by omega))

/-- C2 witness: the two monochrome files with 1 and 2 pixels of (5, 5, 5),
analyzed with K = 1, aggregate to exactly `{(5,5,5): 100.0}`. -/
theorem C2_witness :
    analyze_folder_grouped_colors 1 [fileOne1, fileOne2]
      = [((5, 5, 5), 100)] :=
  C2_amended_monochrome_aggregate fileOne1 fileOne2 imgMono1 imgMono2
    clOne1 clOne2 (5, 5, 5) (by decide) (by decide) rfl rfl rfl rfl rfl rfl
    (by decide) (by decide) (by decide) (by decide) rfl rfl
    (Or.inl (by decide))

end Sprites
